import Mathlib

/-!
Shallow embedding of `extraction/techniques.py`: metadata-extraction
techniques over a parsed HTML document tree.

The HTML parser (BeautifulSoup) is an external capability; a parsed
document is modelled as a forest of nodes.  An attribute value is either
a plain string or a list of string tokens (the parser returns a token
list for multi-valued attributes such as `rel`; it never does so for
`name`, `property`, `content`, `href`, `type` or `src`, which is stated
as an explicit hypothesis where a technique relies on it).

Python `dict`s are modelled as association lists where an update keeps
the position of an existing key and overwrites its value.  Exception
control flow in `FacebookOpengraphTags.extract` and `Twitter.extract`
(`try`/`except KeyError`) is modelled in an `Except` monad with explicit
exception kinds, so that "never raises" is a provable statement.
-/

namespace Extraction

/-- Python string methods are modelled on the character list of the string. -/
def charsPre : List Char → List Char → Bool
  | [], _ => true
  | _ :: _, [] => false
  | p :: ps, c :: cs => p = c && charsPre ps cs

/-- Python `str.startswith`. -/
def strStarts (pre s : String) : Bool :=
  charsPre pre.toList s.toList

/-- Python `tok in s` for strings: substring containment. -/
def charsSub : List Char → List Char → Bool
  | p, [] => p.isEmpty
  | p, c :: cs => charsPre p (c :: cs) || charsSub p cs

/-- Python `s[n:]`: drop the first `n` characters. -/
def strDropN (n : Nat) (s : String) : String :=
  ⟨s.toList.drop n⟩

/-- One character of Python `str.replace(":", "_")`. -/
def colonRepl (c : Char) : Char :=
  if c = ':' then '_' else c

/-- Python `str.replace(":", "_")`: a single-character pattern, so the
replacement is exactly a character map. -/
def replaceColons (s : String) : String :=
  ⟨s.toList.map colonRepl⟩

/-- Python `str.strip()`: drop leading and trailing whitespace. -/
def strTrim (s : String) : String :=
  ⟨((s.toList.dropWhile Char.isWhitespace).reverse.dropWhile Char.isWhitespace).reverse⟩

/-- A parsed attribute value: a plain string, or a list of tokens for
multi-valued attributes. -/
inductive AttrVal where
  | str (s : String)
  | list (l : List String)
deriving DecidableEq, Repr

/-- A node of the parsed document: a text node, or an element with a tag
name, attributes and children. -/
inductive Node where
  | text (s : String) : Node
  | elem (tag : String) (attrs : List (String × AttrVal)) (children : List Node) : Node

/-- A parsed document: the forest below the document root. -/
def Doc := List Node

/-- Lookup in an association list (first match). -/
def alookup {α : Type} : List (String × α) → String → Option α
  | [], _ => none
  | (k', v) :: rest, k => if k' = k then some v else alookup rest k

/-- Python `dict` update `d[k] = v`: overwrite in place, else append. -/
def dinsert {α : Type} : List (String × α) → String → α → List (String × α)
  | [], k, v => [(k, v)]
  | (k', v') :: rest, k, v =>
    if k' = k then (k', v) :: rest else (k', v') :: dinsert rest k v

/-- Read a named attribute of a node (`None`-like absence for text nodes). -/
def getAttr (n : Node) (a : String) : Option AttrVal :=
  match n with
  | .text _ => none
  | .elem _ attrs _ => alookup attrs a

mutual

/-- BeautifulSoup `find_all(tag)` below one node, the node itself included:
matching elements in document (preorder) order. -/
def nodeFindAll (t : String) : Node → List Node
  | .text _ => []
  | .elem tg a cs => (if tg = t then [Node.elem tg a cs] else []) ++ listFindAll t cs

/-- BeautifulSoup `find_all(tag)` over a forest, document order. -/
def listFindAll (t : String) : List Node → List Node
  | [] => []
  | c :: cs => nodeFindAll t c ++ listFindAll t cs

end

mutual

/-- BeautifulSoup `.strings`: all text descendants of a node, document order. -/
def nodeStrings : Node → List String
  | .text s => [s]
  | .elem _ _ cs => listStrings cs

/-- BeautifulSoup `.strings` over a forest. -/
def listStrings : List Node → List String
  | [] => []
  | c :: cs => nodeStrings c ++ listStrings cs

end

/-- BeautifulSoup `tag.string`: the unique text child, recursing through a
unique element child; `None` otherwise. -/
def Node.string : Node → Option String
  | .text s => some s
  | .elem _ _ [c] => Node.string c
  | .elem _ _ _ => none

/-- Python `" ".join(tag.strings)`. -/
def sjoin (n : Node) : String :=
  String.intercalate " " (nodeStrings n)

/-- A value stored in a result sequence: a string, Python `None`, or a
token list coming from a multi-valued attribute. -/
inductive Val where
  | str (s : String)
  | null
  | list (l : List String)
deriving DecidableEq, Repr

/-- Lift a raw attribute value into a stored value. -/
def valOf : AttrVal → Val
  | .str s => .str s
  | .list l => .list l

/-- BeautifulSoup `tag.string` as stored by `HeadTags` (`None` is stored as-is). -/
def valOfOpt : Option String → Val
  | some s => .str s
  | none => .null

/-- A field value of an extraction result: an ordered sequence, the
`og_tags` mapping, or the `twitter_cards` list of card mappings. -/
inductive FieldVal where
  | seq (vs : List Val)
  | dict (d : List (String × String))
  | cards (cs : List (List (String × Val)))
deriving DecidableEq, Repr

/-- An extraction result: a Python dict from field name to field value. -/
def Extracted := List (String × FieldVal)

instance : DecidableEq Extracted :=
  inferInstanceAs (DecidableEq (List (String × FieldVal)))

/-- Python `if k not in extracted: extracted[k] = []` followed by
`extracted[k].append(v)` (also `extracted.setdefault(k, []).append(v)`).
The techniques only ever append to keys they use for sequences, so the
non-sequence branch below is unreachable and kept as the identity. -/
def appendTo : Extracted → String → Val → Extracted
  | [], k, v => [(k, .seq [v])]
  | (k', fv) :: rest, k, v =>
    if k' = k then
      (k', match fv with
           | .seq vs => .seq (vs ++ [v])
           | fv' => fv') :: rest
    else (k', fv) :: appendTo rest k v

/-- Append a whole list of values to one field, in order. -/
def appendAllTo (e : Extracted) (k : String) (vs : List Val) : Extracted :=
  vs.foldl (fun e v => appendTo e k v) e

/-- Fold a list of key/value pairs into a dict by repeated update. -/
def dfold {α : Type} (d : List (String × α)) (ps : List (String × α)) :
    List (String × α) :=
  ps.foldl (fun d p => dinsert d p.1 p.2) d

/-- The value of the last pair with a given key, if any. -/
def lastVal {α : Type} (k : String) : List (String × α) → Option α
  | [] => none
  | p :: ps =>
    match lastVal k ps with
    | some v => some v
    | none => if p.1 = k then some p.2 else none

instance : Repr Extracted :=
  inferInstanceAs (Repr (List (String × FieldVal)))

/-! ## The techniques -/

/-- Source `Technique.extract`: the baseline result, all core fields present and
empty. -/
def Technique.extract (_ : Doc) : Extracted :=
  [("titles", .seq []), ("descriptions", .seq []),
   ("images", .seq []), ("urls", .seq [])]

/-- Source `HeadTags.meta_name_map`. -/
def meta_name_map : List (String × String) :=
  [("description", "descriptions"), ("author", "authors")]

/-- One iteration of the `HeadTags` meta-tag loop: when `name` and
`content` are both present and `name` is in `meta_name_map`, append the
raw `content` to the mapped field.  A token-list `name` can match no map
key, so it contributes nothing (the parser never multi-values `name`). -/
def headMetaStep (e : Extracted) (m : Node) : Extracted :=
  match getAttr m "name", getAttr m "content" with
  | some nv, some cv =>
    (match nv with
     | .str n =>
       match alookup meta_name_map n with
       | some dest => appendTo e dest (valOf cv)
       | none => e
     | .list _ => e)
  | _, _ => e

/-- Python `'tok' in link_tag['rel'] or link_tag['rel'] == 'tok'`:
substring or equality on a plain string, membership on a token list
(a list never equals a string). -/
def relHas (v : AttrVal) (tok : String) : Bool :=
  match v with
  | .str s => charsSub tok.toList s.toList || s = tok
  | .list l => l.contains tok

/-- Python `'type' in link_tag.attrs and link_tag['type'] ==
"application/rss+xml"` (a token list never equals a string). -/
def linkTypeRss (l : Node) : Bool :=
  match getAttr l "type" with
  | some (.str t) => t = "application/rss+xml"
  | some (.list _) => false
  | none => false

/-- One iteration of the `HeadTags` link-tag loop: the feeds branch, else
the canonical-urls branch. -/
def headLinkStep (e : Extracted) (l : Node) : Extracted :=
  match getAttr l "rel" with
  | none => e
  | some rv =>
    if relHas rv "alternate" && linkTypeRss l && (getAttr l "href").isSome then
      match getAttr l "href" with
      | some hv => appendTo e "feeds" (valOf hv)
      | none => e
    else if relHas rv "canonical" && (getAttr l "href").isSome then
      match getAttr l "href" with
      | some hv => appendTo e "urls" (valOf hv)
      | none => e
    else e

/-- Source `HeadTags.extract`: title tag, then meta tags, then link tags. -/
def HeadTags.extract (d : Doc) : Extracted :=
  (listFindAll "link" d).foldl headLinkStep
    ((listFindAll "meta" d).foldl headMetaStep
      (match (listFindAll "title" d).head? with
       | some t => [("titles", .seq [valOfOpt t.string])]
       | none => []))

/-- Source `FacebookOpengraphTags.property_map`. -/
def property_map : List (String × String) :=
  [("og:title", "titles"), ("og:url", "urls"), ("og:image", "images"),
   ("og:description", "descriptions"), ("og:type", "types")]

/-- Exceptions of the modelled Python fragment. -/
inductive Exc where
  | keyError
  | attributeError
deriving DecidableEq, Repr

/-- Loop state of `FacebookOpengraphTags.extract`: the `extracted` dict
and the `og_tags` dict. -/
structure FBSt where
  extracted : Extracted
  ogTags : List (String × String)
deriving DecidableEq

/-- The identifier of a meta tag for `FacebookOpengraphTags`: attribute
`property`, falling back to `name` (`try`/`except KeyError`). -/
def fbIdent (m : Node) : Option AttrVal :=
  match getAttr m "property" with
  | some v => some v
  | none => getAttr m "name"

/-- One iteration of the `FacebookOpengraphTags` meta loop, with explicit
exception flow.  `property_map[property_]` raises `KeyError` only after
`og_tags` was already updated; the outer handler keeps that update. -/
def fbStep (st : FBSt) (m : Node) : Except Exc FBSt :=
  match fbIdent m with
  | none => .ok st
  | some (.list _) => .error .attributeError
  | some (.str p) =>
    if strStarts "og:" p then
      match getAttr m "content" with
      | none => .ok st
      | some (.list _) => .error .attributeError
      | some (.str c0) =>
        if strTrim c0 = "" then .ok st
        else
          match alookup property_map p with
          | some dest =>
            .ok ⟨appendTo st.extracted dest (.str (strTrim c0)),
                 dinsert st.ogTags (replaceColons (strDropN 3 p)) (strTrim c0)⟩
          | none =>
            .ok ⟨st.extracted,
                 dinsert st.ogTags (replaceColons (strDropN 3 p)) (strTrim c0)⟩
    else .ok st

/-- The meta loop of `FacebookOpengraphTags.extract`. -/
def fbFold : FBSt → List Node → Except Exc FBSt
  | st, [] => .ok st
  | st, m :: ms =>
    match fbStep st m with
    | .ok st' => fbFold st' ms
    | .error e => .error e

/-- Source `FacebookOpengraphTags.extract`: run the meta loop, then attach
`og_tags` when the `type` key was found. -/
def FacebookOpengraphTags.extract (d : Doc) : Except Exc Extracted :=
  match fbFold ⟨[], []⟩ (listFindAll "meta" d) with
  | .ok st =>
    .ok (match alookup st.ogTags "type" with
         | some _ => dinsert st.extracted "og_tags" (.dict st.ogTags)
         | none => st.extracted)
  | .error e => .error e

/-- The children of a node. -/
def Node.children : Node → List Node
  | .text _ => []
  | .elem _ _ cs => cs

/-- Source `HTML5SemanticTags.extract`: first `h1` and first `p` descendant of
each `article`, and the `src` of every `source` under a `video`. -/
def HTML5SemanticTags.extract (d : Doc) : Extracted :=
  let titles := (listFindAll "article" d).filterMap
    (fun a => (listFindAll "h1" a.children).head?.map (fun t => Val.str (sjoin t)))
  let descriptions := (listFindAll "article" d).filterMap
    (fun a => (listFindAll "p" a.children).head?.map (fun t => Val.str (sjoin t)))
  let videos := ((listFindAll "video" d).map (fun v =>
      (listFindAll "source" v.children).filterMap
        (fun s => (getAttr s "src").map valOf))).flatten
  [("titles", .seq titles), ("descriptions", .seq descriptions),
   ("videos", .seq videos)]

/-- Source `SemanticTags.extract_string`: (tag, destination, store-first-n). -/
def extract_string : List (String × String × Nat) :=
  [("h1", "titles", 3), ("h2", "titles", 3), ("h3", "titles", 1),
   ("p", "descriptions", 5)]

/-- Source `SemanticTags.extract_attr`: (tag, destination, attribute, store-first-n). -/
def extract_attr : List (String × String × String × Nat) :=
  [("img", "images", "src", 10)]

/-- One matched element of a `SemanticTags` attribute rule: append the
raw attribute value when the attribute is present, else skip silently. -/
def attrStep (k a : String) (e : Extracted) (found : Node) : Extracted :=
  match getAttr found a with
  | some v => appendTo e k (valOf v)
  | none => e

/-- Source `SemanticTags.extract`: rule tables in order, taking the first
`store_first_n` matches of each rule. -/
def SemanticTags.extract (d : Doc) : Extracted :=
  extract_attr.foldl
    (fun e r => ((listFindAll r.1 d).take r.2.2.2).foldl (attrStep r.2.1 r.2.2.1) e)
    (extract_string.foldl
      (fun e r => ((listFindAll r.1 d).take r.2.2).foldl
        (fun e found => appendTo e r.2.1 (.str (sjoin found))) e) [])

/-- The identifier of a meta tag for `Twitter`: attribute `name`, falling
back to `property` (`try`/`except KeyError`). -/
def twIdent (m : Node) : Option AttrVal :=
  match getAttr m "name" with
  | some v => some v
  | none => getAttr m "property"

/-- One iteration of the `Twitter` meta loop: the raw `content` (no
trimming, no emptiness check) is stored under the normalized key;
a missing `content` raises `KeyError`, caught by the handler. -/
def twStep (card : List (String × Val)) (m : Node) : Except Exc (List (String × Val)) :=
  match twIdent m with
  | none => .ok card
  | some (.list _) => .error .attributeError
  | some (.str p) =>
    if strStarts "twitter:" p then
      match getAttr m "content" with
      | none => .ok card
      | some v => .ok (dinsert card (replaceColons (strDropN 8 p)) (valOf v))
    else .ok card

/-- The meta loop of `Twitter.extract`. -/
def twFold : List (String × Val) → List Node → Except Exc (List (String × Val))
  | card, [] => .ok card
  | card, m :: ms =>
    match twStep card m with
    | .ok card' => twFold card' ms
    | .error e => .error e

/-- Source `Twitter.extract`: run the meta loop, then report the single card
when the `card` key was found. -/
def Twitter.extract (d : Doc) : Except Exc Extracted :=
  match twFold [] (listFindAll "meta" d) with
  | .ok card =>
    .ok (match alookup card "card" with
         | some _ => [("twitter_cards", .cards [card])]
         | none => [])
  | .error e => .error e

/-! ## Parser invariant -/

/-- This attribute of this node, when present, is a plain string. -/
def strAttr (m : Node) (a : String) : Bool :=
  match getAttr m a with
  | some (.list _) => false
  | _ => true

/-- The parser invariant a meta tag enjoys: BeautifulSoup never returns a
token list for `property`, `name` or `content`. -/
def metaStrAttrs (m : Node) : Bool :=
  strAttr m "property" && strAttr m "name" && strAttr m "content"

/-- The parser invariant over all meta tags of a document. -/
def docStrAttrs (d : Doc) : Bool :=
  (listFindAll "meta" d).all metaStrAttrs

/-! ## Derived forms used by the verification -/

/-- A sequence field as it appears in a result: the key is absent when
nothing was appended. -/
def seqOpt : List Val → Option FieldVal
  | [] => none
  | vs => some (.seq vs)

/-- The text entries a `SemanticTags` text rule contributes. -/
def semTexts (tag : String) (n : Nat) (d : Doc) : List Val :=
  ((listFindAll tag d).take n).map (fun f => Val.str (sjoin f))

/-- The image entries the `SemanticTags` attribute rule contributes. -/
def semImgs (d : Doc) : List Val :=
  ((listFindAll "img" d).take 10).filterMap (fun f => (getAttr f "src").map valOf)

/-- The url a link tag contributes to `urls` in `HeadTags.extract`: its
`href` when the canonical branch fires (the feeds branch is checked
first). -/
def canonHref (l : Node) : Option Val :=
  match getAttr l "rel" with
  | none => none
  | some rv =>
    if relHas rv "alternate" && linkTypeRss l && (getAttr l "href").isSome then none
    else if relHas rv "canonical" && (getAttr l "href").isSome then
      (getAttr l "href").map valOf
    else none

/-- All canonical urls of a document, in document order. -/
def canonHrefs (d : Doc) : List Val :=
  (listFindAll "link" d).filterMap canonHref

/-- The pure restriction of `fbStep`: identical on every meta tag
satisfying the parser invariant (`fbStep_ok`); on the error branches it
skips the tag. -/
def fbStepP (st : FBSt) (m : Node) : FBSt :=
  match fbIdent m with
  | none => st
  | some (.list _) => st
  | some (.str p) =>
    if strStarts "og:" p then
      match getAttr m "content" with
      | none => st
      | some (.list _) => st
      | some (.str c0) =>
        if strTrim c0 = "" then st
        else
          match alookup property_map p with
          | some dest =>
            ⟨appendTo st.extracted dest (.str (strTrim c0)),
             dinsert st.ogTags (replaceColons (strDropN 3 p)) (strTrim c0)⟩
          | none =>
            ⟨st.extracted,
             dinsert st.ogTags (replaceColons (strDropN 3 p)) (strTrim c0)⟩
    else st

/-- The `og_tags` entry one meta tag contributes. -/
def fbPair (m : Node) : Option (String × String) :=
  match fbIdent m with
  | some (.str p) =>
    if strStarts "og:" p then
      match getAttr m "content" with
      | some (.str c0) =>
        if strTrim c0 = "" then none
        else some (replaceColons (strDropN 3 p), strTrim c0)
      | _ => none
    else none
  | _ => none

/-- The final loop state of `FacebookOpengraphTags.extract`, pure form. -/
def fbRun (d : Doc) : FBSt :=
  (listFindAll "meta" d).foldl fbStepP ⟨[], []⟩

/-- The result of `FacebookOpengraphTags.extract`, pure form. -/
def fbResult (d : Doc) : Extracted :=
  match alookup (fbRun d).ogTags "type" with
  | some _ => dinsert (fbRun d).extracted "og_tags" (.dict (fbRun d).ogTags)
  | none => (fbRun d).extracted

/-- This meta tag qualifies the document for `og_tags`: its identifier is
`og:type` and its `content` is nonempty after trimming. -/
def fbTypeQual (m : Node) : Bool :=
  match fbIdent m, getAttr m "content" with
  | some (.str p), some (.str c) => p == "og:type" && strTrim c != ""
  | _, _ => false

/-- The pure restriction of `twStep` (see `twStep_ok`). -/
def twStepP (card : List (String × Val)) (m : Node) : List (String × Val) :=
  match twIdent m with
  | none => card
  | some (.list _) => card
  | some (.str p) =>
    if strStarts "twitter:" p then
      match getAttr m "content" with
      | none => card
      | some v => dinsert card (replaceColons (strDropN 8 p)) (valOf v)
    else card

/-- The card entry one meta tag contributes. -/
def twPair (m : Node) : Option (String × Val) :=
  match twIdent m with
  | some (.str p) =>
    if strStarts "twitter:" p then
      (getAttr m "content").map (fun v => (replaceColons (strDropN 8 p), valOf v))
    else none
  | _ => none

/-- The single card accumulated by `Twitter.extract`, pure form. -/
def twCard (d : Doc) : List (String × Val) :=
  dfold [] ((listFindAll "meta" d).filterMap twPair)

/-- The result of `Twitter.extract`, pure form. -/
def twResult (d : Doc) : Extracted :=
  match alookup (twCard d) "card" with
  | some _ => [("twitter_cards", .cards [twCard d])]
  | none => []

/-- This meta tag qualifies the document for `twitter_cards`: its
identifier is `twitter:card` and it has a `content` attribute. -/
def twCardQual (m : Node) : Bool :=
  match twIdent m with
  | some (.str p) => p == "twitter:card" && (getAttr m "content").isSome
  | _ => false

/-- A `twitter:card` meta tag whose content trims to the empty string. -/
def twEmptyCard (m : Node) : Bool :=
  match twIdent m, getAttr m "content" with
  | some (.str p), some (.str c) => p == "twitter:card" && strTrim c == ""
  | _, _ => false

/-! ## Concrete documents for counterexamples and witnesses -/

/-- An element whose only child is a text node. -/
def tagText (t s : String) : Node :=
  .elem t [] [.text s]

/-- A meta tag with one identifying attribute and a content attribute. -/
def metaTag (idAttr idVal content : String) : Node :=
  .elem "meta" [(idAttr, .str idVal), ("content", .str content)] []

/-- Five `h1` and two `h2` elements, document order `A` … `G`. -/
def docFiveH1 : Doc :=
  [tagText "h1" "A", tagText "h1" "B", tagText "h1" "C", tagText "h1" "D",
   tagText "h1" "E", tagText "h2" "F", tagText "h2" "G"]

/-- A meta tag carrying `og:type` but no `content` attribute. -/
def docTypeNoContent : Doc :=
  [.elem "meta" [("property", .str "og:type")] []]

/-- The Open Graph scenario: a mapped tag, a whitespace-padded mapped tag
and an unmapped tag, plus the qualifying `og:type`. -/
def docOg : Doc :=
  [metaTag "property" "og:title" " The Rock ",
   metaTag "property" "og:site_name" "IMDb",
   metaTag "property" "og:type" "movie"]

/-- A meta tag carrying `twitter:card` but no `content` attribute. -/
def docCardNoContent : Doc :=
  [.elem "meta" [("name", .str "twitter:card")] []]

/-- A Twitter card with a repeated property: `twitter:site` appears twice. -/
def docTwitter : Doc :=
  [metaTag "name" "twitter:card" "player",
   metaTag "name" "twitter:site" "@x",
   metaTag "name" "twitter:site" "@y"]

/-- A `twitter:card` meta tag with whitespace-only content. -/
def docTwitterEmpty : Doc :=
  [metaTag "name" "twitter:card" " "]

/-- A head with a title, a description meta tag and a canonical link. -/
def docHead : Doc :=
  [.elem "head" []
    [.elem "title" [] [.text "T"],
     metaTag "name" "description" "D",
     .elem "link" [("rel", .list ["canonical"]), ("href", .str "http://x/y")] []]]

/-- A link that matches both the feeds branch and the canonical branch:
`rel` holds `alternate` and `canonical`, `type` is the RSS type. -/
def docFeedCanonical : Doc :=
  [.elem "link"
    [("rel", .list ["alternate", "canonical"]),
     ("type", .str "application/rss+xml"),
     ("href", .str "http://u")] []]

/-- An unmapped Open Graph meta tag (`og:site_name`). -/
def metaSiteName : Node :=
  metaTag "property" "og:site_name" "IMDb"

/-- A mapped Open Graph meta tag with whitespace-padded content. -/
def metaOgTitle : Node :=
  metaTag "property" "og:title" " The Rock "

/-! ## Dictionary lemmas -/

theorem alookup_dinsert_self {α : Type} (d : List (String × α)) (k : String) (v : α) :
    alookup (dinsert d k v) k = some v := by
  induction d with
  | nil => simp [dinsert, alookup]
  | cons hd tl ih =>
    obtain ⟨k', v'⟩ := hd
    by_cases h : k' = k
    · simp [dinsert, h, alookup]
    · simp [dinsert, h, alookup, ih]

theorem alookup_dinsert_ne {α : Type} (d : List (String × α)) (k : String) (v : α)
    (k' : String) (h : k' ≠ k) : alookup (dinsert d k v) k' = alookup d k' := by
  have hne : ¬(k = k') := fun hh => h hh.symm
  induction d with
  | nil => simp [dinsert, alookup, hne]
  | cons hd tl ih =>
    obtain ⟨k'', v''⟩ := hd
    by_cases h2 : k'' = k
    · subst h2
      simp [dinsert, alookup, hne]
    · simp only [dinsert, if_neg h2, alookup]
      by_cases h3 : k'' = k' <;> simp [h3, ih]

theorem alookup_some_mem {α : Type} (d : List (String × α)) (k : String) (v : α)
    (h : alookup d k = some v) : ∃ p ∈ d, p.1 = k := by
  induction d with
  | nil => simp [alookup] at h
  | cons hd tl ih =>
    obtain ⟨k', v'⟩ := hd
    by_cases h2 : k' = k
    · exact ⟨(k', v'), List.mem_cons_self _ _, h2⟩
    · simp only [alookup, if_neg h2] at h
      obtain ⟨p, hp, hk⟩ := ih h
      exact ⟨p, List.mem_cons_of_mem _ hp, hk⟩

theorem lastVal_isSome_iff {α : Type} (k : String) (ps : List (String × α)) :
    (lastVal k ps).isSome = true ↔ ∃ p ∈ ps, p.1 = k := by
  induction ps with
  | nil => simp [lastVal]
  | cons p ps ih =>
    constructor
    · intro h
      simp only [lastVal] at h
      cases hl : lastVal k ps with
      | some v =>
        obtain ⟨q, hq, hk⟩ := ih.1 (by simp [hl])
        exact ⟨q, List.mem_cons_of_mem _ hq, hk⟩
      | none =>
        rw [hl] at h
        by_cases hp : p.1 = k
        · exact ⟨p, List.mem_cons_self _ _, hp⟩
        · simp [hp] at h
    · rintro ⟨q, hq, hk⟩
      simp only [lastVal]
      cases hl : lastVal k ps with
      | some v => simp
      | none =>
        rcases List.mem_cons.1 hq with rfl | hq2
        · simp [hk]
        · have h2 : (lastVal k ps).isSome = true := ih.2 ⟨q, hq2, hk⟩
          rw [hl] at h2
          simp at h2

theorem alookup_dfold {α : Type} (ps d : List (String × α)) (k : String) :
    alookup (dfold d ps) k =
      match lastVal k ps with
      | some v => some v
      | none => alookup d k := by
  induction ps generalizing d with
  | nil => simp [dfold, lastVal]
  | cons p ps ih =>
    have hfold : dfold d (p :: ps) = dfold (dinsert d p.1 p.2) ps := rfl
    rw [hfold, ih]
    cases hl : lastVal k ps with
    | some v => simp [lastVal, hl]
    | none =>
      simp only [lastVal, hl]
      by_cases hp : p.1 = k
      · simp only [if_pos hp]
        rw [← hp, alookup_dinsert_self]
      · simp only [if_neg hp]
        exact alookup_dinsert_ne _ _ _ _ (fun hh => hp hh.symm)

theorem alookup_dfold_nil {α : Type} (ps : List (String × α)) (k : String) :
    alookup (dfold ([] : List (String × α)) ps) k = lastVal k ps := by
  rw [alookup_dfold]
  cases lastVal k ps <;> simp [alookup]

/-! ## Append lemmas -/

theorem alookup_appendTo_ne (e : List (String × FieldVal)) (k : String) (v : Val)
    (k' : String) (h : k' ≠ k) : alookup (appendTo e k v) k' = alookup e k' := by
  have hne : ¬(k = k') := fun hh => h hh.symm
  induction e with
  | nil => simp [appendTo, alookup, hne]
  | cons hd tl ih =>
    obtain ⟨k'', fv⟩ := hd
    by_cases h2 : k'' = k
    · subst h2
      simp [appendTo, alookup, hne]
    · simp only [appendTo, if_neg h2, alookup]
      by_cases h3 : k'' = k' <;> simp [h3, ih]

theorem alookup_appendTo_self_none (e : List (String × FieldVal)) (k : String) (v : Val)
    (h : alookup e k = none) : alookup (appendTo e k v) k = some (.seq [v]) := by
  induction e with
  | nil => simp [appendTo, alookup]
  | cons hd tl ih =>
    obtain ⟨k', fv⟩ := hd
    by_cases h2 : k' = k
    · simp [alookup, h2] at h
    · simp only [alookup, if_neg h2] at h
      simp [appendTo, if_neg h2, alookup, h2, ih h]

theorem alookup_appendTo_self_seq (e : List (String × FieldVal)) (k : String) (v : Val)
    (vs : List Val) (h : alookup e k = some (.seq vs)) :
    alookup (appendTo e k v) k = some (.seq (vs ++ [v])) := by
  induction e with
  | nil => simp [alookup] at h
  | cons hd tl ih =>
    obtain ⟨k', fv⟩ := hd
    by_cases h2 : k' = k
    · subst h2
      simp only [alookup, eq_self_iff_true, if_true, Option.some.injEq] at h
      subst h
      simp [appendTo, alookup]
    · simp only [alookup, if_neg h2] at h
      simp [appendTo, if_neg h2, alookup, h2, ih h]

theorem appendAllTo_append (e : List (String × FieldVal)) (k : String)
    (vs ws : List Val) :
    appendAllTo e k (vs ++ ws) = appendAllTo (appendAllTo e k vs) k ws := by
  simp [appendAllTo, List.foldl_append]

theorem alookup_appendAllTo_ne (vs : List Val) (e : List (String × FieldVal))
    (k k' : String) (h : k' ≠ k) :
    alookup (appendAllTo e k vs) k' = alookup e k' := by
  induction vs generalizing e with
  | nil => rfl
  | cons v vs ih =>
    show alookup (appendAllTo (appendTo e k v) k vs) k' = _
    rw [ih, alookup_appendTo_ne _ _ _ _ h]

theorem alookup_appendAllTo_seq (vs : List Val) (e : List (String × FieldVal))
    (k : String) (ws : List Val) (h : alookup e k = some (.seq ws)) :
    alookup (appendAllTo e k vs) k = some (.seq (ws ++ vs)) := by
  induction vs generalizing e ws with
  | nil => simpa using h
  | cons v vs ih =>
    show alookup (appendAllTo (appendTo e k v) k vs) k = _
    rw [ih _ _ (alookup_appendTo_self_seq _ _ _ _ h)]
    simp

theorem alookup_appendAllTo_none (vs : List Val) (e : List (String × FieldVal))
    (k : String) (h : alookup e k = none) :
    alookup (appendAllTo e k vs) k = seqOpt vs := by
  cases vs with
  | nil => simpa [seqOpt] using h
  | cons v vs =>
    show alookup (appendAllTo (appendTo e k v) k vs) k = _
    rw [alookup_appendAllTo_seq _ _ _ _ (alookup_appendTo_self_none _ _ _ h)]
    simp [seqOpt]

/-! ## String lemmas -/

theorem charsPre_iff (p l : List Char) : charsPre p l = true ↔ ∃ t, l = p ++ t := by
  induction p generalizing l with
  | nil => simp [charsPre]
  | cons c p ih =>
    cases l with
    | nil => simp [charsPre]
    | cons c' l =>
      simp only [charsPre, Bool.and_eq_true, decide_eq_true_eq, ih, List.cons_append,
        List.cons.injEq]
      constructor
      · rintro ⟨hc, t, ht⟩
        exact ⟨t, hc.symm, ht⟩
      · rintro ⟨t, hc, ht⟩
        exact ⟨hc.symm, t, ht⟩

theorem map_colonRepl_eq (t l : List Char) (h : t.map colonRepl = l)
    (hl : '_' ∉ l) : t = l := by
  induction t generalizing l with
  | nil => simpa using h
  | cons c t ih =>
    cases l with
    | nil => simp at h
    | cons c' l =>
      simp only [List.map_cons, List.cons.injEq] at h
      obtain ⟨hc, ht⟩ := h
      have hl' : '_' ∉ l := fun hm => hl (List.mem_cons_of_mem _ hm)
      have hcc : c = c' := by
        by_cases hcol : c = ':'
        · exfalso
          rw [hcol] at hc
          simp [colonRepl] at hc
          exact hl (hc ▸ List.mem_cons_self _ _)
        · simpa [colonRepl, hcol] using hc
      rw [hcc, ih _ ht hl']

theorem string_toList_inj (s t : String) (h : s.toList = t.toList) : s = t := by
  cases s; cases t
  simp only [String.toList] at h
  exact congrArg String.mk h

theorem colon_not_mem_replaceColons (s : String) :
    ':' ∉ (replaceColons s).toList := by
  intro hm
  have : ∃ c ∈ s.toList, colonRepl c = ':' := by
    simpa [replaceColons, String.toList] using hm
  obtain ⟨c, _, hc⟩ := this
  by_cases hcol : c = ':' <;> simp [colonRepl, hcol] at hc

theorem norm_inv (preS p k : String) (n : Nat)
    (hn : preS.toList.length = n) (hk : '_' ∉ k.toList)
    (h1 : strStarts preS p = true)
    (h2 : replaceColons (strDropN n p) = k) :
    p.toList = preS.toList ++ k.toList := by
  obtain ⟨t, ht⟩ := (charsPre_iff _ _).1 h1
  have hdrop : (strDropN n p).toList = t := by
    show p.toList.drop n = t
    rw [ht, ← hn, List.drop_left]
  have hmap : t.map colonRepl = k.toList := by
    have hcongr := congrArg String.toList h2
    show t.map colonRepl = k.toList
    rw [← hdrop]
    exact hcongr
  rw [ht, map_colonRepl_eq _ _ hmap hk]

/-! ## SemanticTags lemmas -/

theorem foldl_text_append (e : List (String × FieldVal)) (k : String) (l : List Node) :
    l.foldl (fun e f => appendTo e k (Val.str (sjoin f))) e
      = appendAllTo e k (l.map (fun f => Val.str (sjoin f))) := by
  simp [appendAllTo, List.foldl_map]

theorem foldl_attr_append (e : List (String × FieldVal)) (k a : String) (l : List Node) :
    l.foldl (attrStep k a) e
      = appendAllTo e k (l.filterMap (fun f => (getAttr f a).map valOf)) := by
  induction l generalizing e with
  | nil => rfl
  | cons f l ih =>
    cases hf : getAttr f a with
    | none => simp [List.foldl_cons, attrStep, hf, List.filterMap_cons, ih]
    | some v =>
      simp only [List.foldl_cons, List.filterMap_cons, hf, Option.map_some']
      rw [show attrStep k a e f = appendTo e k (valOf v) by simp [attrStep, hf]]
      rw [ih]
      rfl

theorem semanticTags_extract_eq (d : Doc) :
    SemanticTags.extract d =
      appendAllTo (appendAllTo (appendAllTo (appendAllTo (appendAllTo []
        "titles" (semTexts "h1" 3 d)) "titles" (semTexts "h2" 3 d))
        "titles" (semTexts "h3" 1 d)) "descriptions" (semTexts "p" 5 d))
        "images" (semImgs d) := by
  simp only [SemanticTags.extract, extract_string, extract_attr, List.foldl_cons,
    List.foldl_nil, foldl_text_append, foldl_attr_append, semTexts, semImgs]

theorem semanticTags_titles (d : Doc) :
    alookup (SemanticTags.extract d) "titles"
      = seqOpt ((semTexts "h1" 3 d ++ semTexts "h2" 3 d) ++ semTexts "h3" 1 d) := by
  rw [semanticTags_extract_eq]
  rw [alookup_appendAllTo_ne _ _ _ _ (by decide)]
  rw [alookup_appendAllTo_ne _ _ _ _ (by decide)]
  rw [← appendAllTo_append, ← appendAllTo_append, ← List.append_assoc]
  refine alookup_appendAllTo_none _ _ _ ?_
  rfl

theorem semanticTags_descriptions (d : Doc) :
    alookup (SemanticTags.extract d) "descriptions" = seqOpt (semTexts "p" 5 d) := by
  rw [semanticTags_extract_eq]
  rw [alookup_appendAllTo_ne _ _ _ _ (by decide)]
  refine alookup_appendAllTo_none _ _ _ ?_
  rw [alookup_appendAllTo_ne _ _ _ _ (by decide)]
  rw [alookup_appendAllTo_ne _ _ _ _ (by decide)]
  rw [alookup_appendAllTo_ne _ _ _ _ (by decide)]
  rfl

theorem semanticTags_images (d : Doc) :
    alookup (SemanticTags.extract d) "images" = seqOpt (semImgs d) := by
  rw [semanticTags_extract_eq]
  refine alookup_appendAllTo_none _ _ _ ?_
  rw [alookup_appendAllTo_ne _ _ _ _ (by decide)]
  rw [alookup_appendAllTo_ne _ _ _ _ (by decide)]
  rw [alookup_appendAllTo_ne _ _ _ _ (by decide)]
  rw [alookup_appendAllTo_ne _ _ _ _ (by decide)]
  rfl

/-! ## HeadTags lemmas -/

theorem meta_name_map_dest (n dest : String) (h : alookup meta_name_map n = some dest) :
    dest = "descriptions" ∨ dest = "authors" := by
  simp only [meta_name_map, alookup] at h
  split_ifs at h <;> simp_all

theorem headMetaStep_ne (e : List (String × FieldVal)) (m : Node) (k : String)
    (h1 : k ≠ "descriptions") (h2 : k ≠ "authors") :
    alookup (headMetaStep e m) k = alookup e k := by
  cases hn : getAttr m "name" with
  | none => simp [headMetaStep, hn]
  | some nv =>
    cases hc : getAttr m "content" with
    | none => simp [headMetaStep, hn, hc]
    | some cv =>
      cases nv with
      | list l => simp [headMetaStep, hn, hc]
      | str n =>
        cases hm : alookup meta_name_map n with
        | none => simp [headMetaStep, hn, hc, hm]
        | some dest =>
          simp only [headMetaStep, hn, hc, hm]
          rcases meta_name_map_dest n dest hm with rfl | rfl
          · exact alookup_appendTo_ne _ _ _ _ h1
          · exact alookup_appendTo_ne _ _ _ _ h2

theorem headMetaFold_ne (ms : List Node) (e : List (String × FieldVal)) (k : String)
    (h1 : k ≠ "descriptions") (h2 : k ≠ "authors") :
    alookup (ms.foldl headMetaStep e) k = alookup e k := by
  induction ms generalizing e with
  | nil => rfl
  | cons m ms ih => rw [List.foldl_cons, ih, headMetaStep_ne _ _ _ h1 h2]

theorem headLinkStep_ne (e : List (String × FieldVal)) (l : Node) (k : String)
    (h1 : k ≠ "feeds") (h2 : k ≠ "urls") :
    alookup (headLinkStep e l) k = alookup e k := by
  cases hrel : getAttr l "rel" with
  | none => simp [headLinkStep, hrel]
  | some rv =>
    simp only [headLinkStep, hrel]
    by_cases hb1 : (relHas rv "alternate" && linkTypeRss l && (getAttr l "href").isSome) = true
    · rw [if_pos hb1]
      cases hh : getAttr l "href" with
      | some hv => exact alookup_appendTo_ne _ _ _ _ h1
      | none => rfl
    · rw [if_neg hb1]
      by_cases hb2 : (relHas rv "canonical" && (getAttr l "href").isSome) = true
      · rw [if_pos hb2]
        cases hh : getAttr l "href" with
        | some hv => exact alookup_appendTo_ne _ _ _ _ h2
        | none => rfl
      · rw [if_neg hb2]

theorem headLinkFold_ne (ls : List Node) (e : List (String × FieldVal)) (k : String)
    (h1 : k ≠ "feeds") (h2 : k ≠ "urls") :
    alookup (ls.foldl headLinkStep e) k = alookup e k := by
  induction ls generalizing e with
  | nil => rfl
  | cons l ls ih => rw [List.foldl_cons, ih, headLinkStep_ne _ _ _ h1 h2]

theorem headLinkStep_urls_none (e : List (String × FieldVal)) (l : Node)
    (h : alookup e "urls" = none) :
    alookup (headLinkStep e l) "urls"
      = (canonHref l).map (fun v => FieldVal.seq [v]) := by
  cases hrel : getAttr l "rel" with
  | none => simp [headLinkStep, canonHref, hrel, h]
  | some rv =>
    simp only [headLinkStep, canonHref, hrel]
    by_cases hb1 : (relHas rv "alternate" && linkTypeRss l && (getAttr l "href").isSome) = true
    · rw [if_pos hb1, if_pos hb1]
      cases hh : getAttr l "href" with
      | some hv =>
        simpa [alookup_appendTo_ne _ _ _ _ (by decide : "urls" ≠ "feeds")] using h
      | none => simpa using h
    · rw [if_neg hb1, if_neg hb1]
      by_cases hb2 : (relHas rv "canonical" && (getAttr l "href").isSome) = true
      · rw [if_pos hb2, if_pos hb2]
        cases hh : getAttr l "href" with
        | some hv => simp [alookup_appendTo_self_none _ _ _ h]
        | none => rw [hh] at hb2; simp at hb2
      · rw [if_neg hb2, if_neg hb2]
        simpa using h

theorem headLinkStep_urls_seq (e : List (String × FieldVal)) (l : Node) (ws : List Val)
    (h : alookup e "urls" = some (.seq ws)) :
    alookup (headLinkStep e l) "urls"
      = some (.seq (ws ++ (canonHref l).toList)) := by
  cases hrel : getAttr l "rel" with
  | none => simp [headLinkStep, canonHref, hrel, h]
  | some rv =>
    simp only [headLinkStep, canonHref, hrel]
    by_cases hb1 : (relHas rv "alternate" && linkTypeRss l && (getAttr l "href").isSome) = true
    · rw [if_pos hb1, if_pos hb1]
      cases hh : getAttr l "href" with
      | some hv =>
        simpa [alookup_appendTo_ne _ _ _ _ (by decide : "urls" ≠ "feeds")] using h
      | none => simpa using h
    · rw [if_neg hb1, if_neg hb1]
      by_cases hb2 : (relHas rv "canonical" && (getAttr l "href").isSome) = true
      · rw [if_pos hb2, if_pos hb2]
        cases hh : getAttr l "href" with
        | some hv => simp [alookup_appendTo_self_seq _ _ _ _ h]
        | none => rw [hh] at hb2; simp at hb2
      · rw [if_neg hb2, if_neg hb2]
        simpa using h

theorem linkFold_urls_seq (ls : List Node) (e : List (String × FieldVal)) (ws : List Val)
    (h : alookup e "urls" = some (.seq ws)) :
    alookup (ls.foldl headLinkStep e) "urls"
      = some (.seq (ws ++ ls.filterMap canonHref)) := by
  induction ls generalizing e ws with
  | nil => simpa using h
  | cons l ls ih =>
    rw [List.foldl_cons]
    have hstep := headLinkStep_urls_seq e l ws h
    cases hc : canonHref l with
    | none =>
      rw [hc] at hstep
      simp only [Option.toList, List.append_nil] at hstep
      rw [ih _ _ hstep]
      simp [List.filterMap_cons, hc]
    | some v =>
      rw [hc] at hstep
      simp only [Option.toList] at hstep
      rw [ih _ _ hstep]
      simp [List.filterMap_cons, hc]

theorem linkFold_urls_none (ls : List Node) (e : List (String × FieldVal))
    (h : alookup e "urls" = none) :
    alookup (ls.foldl headLinkStep e) "urls" = seqOpt (ls.filterMap canonHref) := by
  induction ls generalizing e with
  | nil => simpa [seqOpt] using h
  | cons l ls ih =>
    rw [List.foldl_cons]
    have hstep := headLinkStep_urls_none e l h
    cases hc : canonHref l with
    | none =>
      rw [hc] at hstep
      simp only [Option.map_none'] at hstep
      rw [ih _ hstep]
      simp [List.filterMap_cons, hc]
    | some v =>
      rw [hc] at hstep
      simp only [Option.map_some'] at hstep
      rw [linkFold_urls_seq _ _ _ hstep]
      simp [List.filterMap_cons, hc, seqOpt]

theorem headTags_urls_eq (d : Doc) :
    alookup (HeadTags.extract d) "urls" = seqOpt (canonHrefs d) := by
  unfold HeadTags.extract canonHrefs
  apply linkFold_urls_none
  rw [headMetaFold_ne _ _ _ (by decide) (by decide)]
  cases (listFindAll "title" d).head? with
  | none => rfl
  | some t => simp [alookup]

/-! ## FacebookOpengraphTags lemmas -/

theorem strAttr_not_list (m : Node) (a : String) (l : List String)
    (h : strAttr m a = true) : getAttr m a ≠ some (.list l) := by
  intro hc
  simp [strAttr, hc] at h

theorem fbIdent_not_list (m : Node) (hp : strAttr m "property" = true)
    (hn : strAttr m "name" = true) (l : List String) :
    fbIdent m ≠ some (.list l) := by
  intro hc
  cases hg : getAttr m "property" with
  | some pv =>
    simp only [fbIdent, hg] at hc
    injection hc with hc2
    subst hc2
    exact strAttr_not_list m "property" l hp hg
  | none =>
    simp only [fbIdent, hg] at hc
    exact strAttr_not_list m "name" l hn hc

theorem twIdent_not_list (m : Node) (hp : strAttr m "property" = true)
    (hn : strAttr m "name" = true) (l : List String) :
    twIdent m ≠ some (.list l) := by
  intro hc
  cases hg : getAttr m "name" with
  | some nv =>
    simp only [twIdent, hg] at hc
    injection hc with hc2
    subst hc2
    exact strAttr_not_list m "name" l hn hg
  | none =>
    simp only [twIdent, hg] at hc
    exact strAttr_not_list m "property" l hp hc

theorem fbStep_ok (st : FBSt) (m : Node) (h : metaStrAttrs m = true) :
    fbStep st m = .ok (fbStepP st m) := by
  have hs := h
  simp only [metaStrAttrs, Bool.and_eq_true] at hs
  obtain ⟨⟨hp, hn⟩, hc⟩ := hs
  cases hid : fbIdent m with
  | none => simp [fbStep, fbStepP, hid]
  | some v =>
    cases v with
    | list l => exact absurd hid (fbIdent_not_list m hp hn l)
    | str p =>
      simp only [fbStep, fbStepP, hid]
      by_cases hpre : strStarts "og:" p = true
      · rw [if_pos hpre, if_pos hpre]
        cases hct : getAttr m "content" with
        | none => rfl
        | some cv =>
          cases cv with
          | list l2 => exact absurd hct (strAttr_not_list m "content" l2 hc)
          | str c0 =>
            by_cases he : strTrim c0 = ""
            · simp [he]
            · simp only [if_neg he]
              cases alookup property_map p <;> rfl
      · rw [if_neg hpre, if_neg hpre]

theorem fbFold_ok (ms : List Node) (st : FBSt)
    (h : ∀ m ∈ ms, metaStrAttrs m = true) :
    fbFold st ms = .ok (ms.foldl fbStepP st) := by
  induction ms generalizing st with
  | nil => rfl
  | cons m ms ih =>
    have h1 : fbFold st (m :: ms)
        = match fbStep st m with
          | .ok st' => fbFold st' ms
          | .error e => .error e := rfl
    rw [h1, fbStep_ok st m (h m (List.mem_cons_self m ms)), List.foldl_cons]
    exact ih _ (fun m' hm' => h m' (List.mem_cons_of_mem _ hm'))

theorem fbExtract_ok (d : Doc) (h : docStrAttrs d = true) :
    FacebookOpengraphTags.extract d = .ok (fbResult d) := by
  have hall : ∀ m ∈ listFindAll "meta" d, metaStrAttrs m = true := by
    simpa [docStrAttrs, List.all_eq_true] using h
  unfold FacebookOpengraphTags.extract
  rw [fbFold_ok _ _ hall]
  rfl

theorem fbStepP_ogTags (st : FBSt) (m : Node) :
    (fbStepP st m).ogTags =
      match fbPair m with
      | some pr => dinsert st.ogTags pr.1 pr.2
      | none => st.ogTags := by
  cases hid : fbIdent m with
  | none => simp [fbStepP, fbPair, hid]
  | some v =>
    cases v with
    | list l => simp [fbStepP, fbPair, hid]
    | str p =>
      simp only [fbStepP, fbPair, hid]
      by_cases hpre : strStarts "og:" p = true
      · rw [if_pos hpre, if_pos hpre]
        cases hct : getAttr m "content" with
        | none => rfl
        | some cv =>
          cases cv with
          | list l2 => rfl
          | str c0 =>
            by_cases he : strTrim c0 = ""
            · simp [he]
            · simp only [if_neg he]
              cases alookup property_map p <;> rfl
      · rw [if_neg hpre, if_neg hpre]

theorem dfold_cons {α : Type} (d : List (String × α)) (p : String × α)
    (ps : List (String × α)) :
    dfold d (p :: ps) = dfold (dinsert d p.1 p.2) ps := rfl

theorem foldl_fbStepP_ogTags (ms : List Node) (st : FBSt) :
    (ms.foldl fbStepP st).ogTags = dfold st.ogTags (ms.filterMap fbPair) := by
  induction ms generalizing st with
  | nil => rfl
  | cons m ms ih =>
    rw [List.foldl_cons, ih]
    have hog := fbStepP_ogTags st m
    cases hp : fbPair m with
    | none =>
      rw [hp] at hog
      simp only [] at hog
      rw [hog]
      simp [List.filterMap_cons, hp]
    | some pr =>
      rw [hp] at hog
      simp only [] at hog
      rw [hog]
      simp [List.filterMap_cons, hp, dfold_cons]

theorem property_map_dest (p dest : String)
    (h : alookup property_map p = some dest) : ¬dest = "og_tags" := by
  simp only [property_map, alookup] at h
  split_ifs at h <;>
    first
    | exact Option.noConfusion h
    | · injection h with h2
        subst h2
        decide

theorem fbStepP_extracted_og (st : FBSt) (m : Node)
    (h : alookup st.extracted "og_tags" = none) :
    alookup (fbStepP st m).extracted "og_tags" = none := by
  cases hid : fbIdent m with
  | none => simpa [fbStepP, hid] using h
  | some v =>
    cases v with
    | list l => simpa [fbStepP, hid] using h
    | str p =>
      simp only [fbStepP, hid]
      by_cases hpre : strStarts "og:" p = true
      · rw [if_pos hpre]
        cases hct : getAttr m "content" with
        | none => exact h
        | some cv =>
          cases cv with
          | list l2 => exact h
          | str c0 =>
            by_cases he : strTrim c0 = ""
            · simpa [he] using h
            · simp only [if_neg he]
              cases hpm : alookup property_map p with
              | none => exact h
              | some dest =>
                exact (alookup_appendTo_ne _ _ _ _
                  (fun hh => property_map_dest p dest hpm hh.symm)).trans h
      · rw [if_neg hpre]
        exact h

theorem foldl_fbStepP_og_none (ms : List Node) (st : FBSt)
    (h : alookup st.extracted "og_tags" = none) :
    alookup ((ms.foldl fbStepP st)).extracted "og_tags" = none := by
  induction ms generalizing st with
  | nil => exact h
  | cons m ms ih =>
    rw [List.foldl_cons]
    exact ih _ (fbStepP_extracted_og _ _ h)

theorem fbRun_ogTags (d : Doc) :
    (fbRun d).ogTags = dfold [] ((listFindAll "meta" d).filterMap fbPair) := by
  unfold fbRun
  rw [foldl_fbStepP_ogTags]

theorem fbPair_type_iff (m : Node) :
    (∃ v, fbPair m = some ("type", v)) ↔ fbTypeQual m = true := by
  cases hid : fbIdent m with
  | none => simp [fbPair, fbTypeQual, hid]
  | some av =>
    cases av with
    | list l => simp [fbPair, fbTypeQual, hid]
    | str p =>
      cases hct : getAttr m "content" with
      | none => simp [fbPair, fbTypeQual, hid, hct]
      | some cv =>
        cases cv with
        | list l2 => simp [fbPair, fbTypeQual, hid, hct]
        | str c0 =>
          by_cases hpre : strStarts "og:" p = true
          · by_cases he : strTrim c0 = ""
            · simp [fbPair, fbTypeQual, hid, hct, hpre, he]
            · simp only [fbPair, fbTypeQual, hid, hct, hpre, if_true, if_neg he]
              constructor
              · rintro ⟨v, hv⟩
                injection hv with hv
                have hk : replaceColons (strDropN 3 p) = "type" :=
                  congrArg Prod.fst hv
                have hp2 := norm_inv "og:" p "type" 3 (by decide) (by decide) hpre hk
                have hp3 : p = "og:type" :=
                  string_toList_inj _ _ (by rw [hp2]; decide)
                simp [hp3, he]
              · intro hq
                simp only [Bool.and_eq_true, beq_iff_eq, bne_iff_ne] at hq
                obtain ⟨hp2, _⟩ := hq
                subst hp2
                exact ⟨strTrim c0,
                  by rw [show replaceColons (strDropN 3 "og:type") = "type" from by decide]⟩
          · have hne : p ≠ "og:type" := fun hp2 => hpre (hp2 ▸ by decide)
            simp [fbPair, fbTypeQual, hid, hct, hpre, hne]

theorem exists_pair_key_iff {α : Type} (f : Node → Option (String × α))
    (ms : List Node) (k : String) :
    (∃ pr ∈ ms.filterMap f, pr.1 = k) ↔ ∃ m ∈ ms, ∃ v, f m = some (k, v) := by
  constructor
  · rintro ⟨⟨k', v⟩, hpr, hk⟩
    obtain ⟨m, hm, hf⟩ := List.mem_filterMap.1 hpr
    dsimp at hk
    subst hk
    exact ⟨m, hm, v, hf⟩
  · rintro ⟨m, hm, v, hf⟩
    exact ⟨(k, v), List.mem_filterMap.2 ⟨m, hm, hf⟩, rfl⟩

/-! ## Twitter lemmas -/

theorem twStep_ok (card : List (String × Val)) (m : Node)
    (h : metaStrAttrs m = true) : twStep card m = .ok (twStepP card m) := by
  have hs := h
  simp only [metaStrAttrs, Bool.and_eq_true] at hs
  obtain ⟨⟨hp, hn⟩, _⟩ := hs
  cases hid : twIdent m with
  | none => simp [twStep, twStepP, hid]
  | some v =>
    cases v with
    | list l => exact absurd hid (twIdent_not_list m hp hn l)
    | str p =>
      simp only [twStep, twStepP, hid]
      by_cases hpre : strStarts "twitter:" p = true
      · rw [if_pos hpre, if_pos hpre]
        cases getAttr m "content" <;> rfl
      · rw [if_neg hpre, if_neg hpre]

theorem twFold_ok (ms : List Node) (card : List (String × Val))
    (h : ∀ m ∈ ms, metaStrAttrs m = true) :
    twFold card ms = .ok (ms.foldl twStepP card) := by
  induction ms generalizing card with
  | nil => rfl
  | cons m ms ih =>
    have h1 : twFold card (m :: ms)
        = match twStep card m with
          | .ok card' => twFold card' ms
          | .error e => .error e := rfl
    rw [h1, twStep_ok card m (h m (List.mem_cons_self m ms)), List.foldl_cons]
    exact ih _ (fun m' hm' => h m' (List.mem_cons_of_mem _ hm'))

theorem twStepP_pair (card : List (String × Val)) (m : Node) :
    twStepP card m =
      match twPair m with
      | some pr => dinsert card pr.1 pr.2
      | none => card := by
  cases hid : twIdent m with
  | none => simp [twStepP, twPair, hid]
  | some v =>
    cases v with
    | list l => simp [twStepP, twPair, hid]
    | str p =>
      simp only [twStepP, twPair, hid]
      by_cases hpre : strStarts "twitter:" p = true
      · rw [if_pos hpre, if_pos hpre]
        cases getAttr m "content" <;> rfl
      · rw [if_neg hpre, if_neg hpre]

theorem foldl_twStepP (ms : List Node) (card : List (String × Val)) :
    ms.foldl twStepP card = dfold card (ms.filterMap twPair) := by
  induction ms generalizing card with
  | nil => rfl
  | cons m ms ih =>
    rw [List.foldl_cons, ih]
    have hstep := twStepP_pair card m
    cases hp : twPair m with
    | none =>
      rw [hp] at hstep
      simp only [] at hstep
      rw [hstep]
      simp [List.filterMap_cons, hp]
    | some pr =>
      rw [hp] at hstep
      simp only [] at hstep
      rw [hstep]
      simp [List.filterMap_cons, hp, dfold_cons]

theorem twExtract_ok (d : Doc) (h : docStrAttrs d = true) :
    Twitter.extract d = .ok (twResult d) := by
  have hall : ∀ m ∈ listFindAll "meta" d, metaStrAttrs m = true := by
    simpa [docStrAttrs, List.all_eq_true] using h
  unfold Twitter.extract
  rw [twFold_ok _ _ hall, foldl_twStepP]
  rfl

theorem twPair_card_iff (m : Node) :
    (∃ v, twPair m = some ("card", v)) ↔ twCardQual m = true := by
  cases hid : twIdent m with
  | none => simp [twPair, twCardQual, hid]
  | some av =>
    cases av with
    | list l => simp [twPair, twCardQual, hid]
    | str p =>
      cases hct : getAttr m "content" with
      | none => simp [twPair, twCardQual, hid, hct]
      | some v0 =>
        by_cases hpre : strStarts "twitter:" p = true
        · simp only [twPair, twCardQual, hid, hct, hpre, if_true, Option.map_some']
          constructor
          · rintro ⟨v, hv⟩
            injection hv with hv
            have hk : replaceColons (strDropN 8 p) = "card" :=
              congrArg Prod.fst hv
            have hp2 := norm_inv "twitter:" p "card" 8 (by decide) (by decide) hpre hk
            have hp3 : p = "twitter:card" :=
              string_toList_inj _ _ (by rw [hp2]; decide)
            simp [hp3]
          · intro hq
            simp only [Bool.and_eq_true, beq_iff_eq] at hq
            obtain ⟨hp2, _⟩ := hq
            subst hp2
            exact ⟨valOf v0,
              by rw [show replaceColons (strDropN 8 "twitter:card") = "card" from by decide]⟩
        · have hne : p ≠ "twitter:card" := fun hp2 => hpre (hp2 ▸ by decide)
          simp [twPair, twCardQual, hid, hct, hpre, hne]

/-! ## Result-shape helpers -/

theorem lastVal_filterMap_isSome_iff {α : Type} (f : Node → Option (String × α))
    (ms : List Node) (k : String) :
    (lastVal k (ms.filterMap f)).isSome = true ↔ ∃ m ∈ ms, ∃ v, f m = some (k, v) := by
  rw [lastVal_isSome_iff]
  exact exists_pair_key_iff f ms k

theorem fbResult_isSome_iff (d : Doc) :
    (alookup (fbResult d) "og_tags").isSome = true
      ↔ (listFindAll "meta" d).any fbTypeQual = true := by
  have hlast : alookup (fbRun d).ogTags "type"
      = lastVal "type" ((listFindAll "meta" d).filterMap fbPair) := by
    rw [fbRun_ogTags, alookup_dfold_nil]
  constructor
  · intro hs
    cases hl : lastVal "type" ((listFindAll "meta" d).filterMap fbPair) with
    | some v =>
      rw [List.any_eq_true]
      obtain ⟨m, hm, v', hf⟩ :=
        (lastVal_filterMap_isSome_iff _ _ _).1 (by rw [hl]; rfl)
      exact ⟨m, hm, (fbPair_type_iff m).1 ⟨v', hf⟩⟩
    | none =>
      exfalso
      have ht : alookup (fbRun d).ogTags "type" = none := by rw [hlast, hl]
      rw [show fbResult d = (fbRun d).extracted from by simp only [fbResult, ht]] at hs
      rw [show alookup (fbRun d).extracted "og_tags" = none from
        foldl_fbStepP_og_none _ _ rfl] at hs
      simp at hs
  · intro hany
    rw [List.any_eq_true] at hany
    obtain ⟨m, hm, hq⟩ := hany
    obtain ⟨v, hf⟩ := (fbPair_type_iff m).2 hq
    have hsome : (lastVal "type" ((listFindAll "meta" d).filterMap fbPair)).isSome = true :=
      (lastVal_filterMap_isSome_iff _ _ _).2 ⟨m, hm, v, hf⟩
    cases hl : lastVal "type" ((listFindAll "meta" d).filterMap fbPair) with
    | none => rw [hl] at hsome; simp at hsome
    | some v2 =>
      have ht : alookup (fbRun d).ogTags "type" = some v2 := by rw [hlast, hl]
      rw [show fbResult d
          = dinsert (fbRun d).extracted "og_tags" (.dict (fbRun d).ogTags) from
        by simp only [fbResult, ht]]
      rw [alookup_dinsert_self]
      rfl

theorem fbResult_dict (d : Doc) (td : List (String × String))
    (h : alookup (fbResult d) "og_tags" = some (.dict td)) :
    td = (fbRun d).ogTags := by
  cases ht : alookup (fbRun d).ogTags "type" with
  | some v2 =>
    rw [show fbResult d
        = dinsert (fbRun d).extracted "og_tags" (.dict (fbRun d).ogTags) from
      by simp only [fbResult, ht]] at h
    rw [alookup_dinsert_self] at h
    injection h with h2
    injection h2 with h3
    exact h3.symm
  | none =>
    rw [show fbResult d = (fbRun d).extracted from by simp only [fbResult, ht]] at h
    rw [show alookup (fbRun d).extracted "og_tags" = none from
      foldl_fbStepP_og_none _ _ rfl] at h
    exact Option.noConfusion h

theorem fbPair_key_no_colon (m : Node) (k v : String)
    (h : fbPair m = some (k, v)) : ':' ∉ k.toList := by
  cases hid : fbIdent m with
  | none => simp [fbPair, hid] at h
  | some av =>
    cases av with
    | list l => simp [fbPair, hid] at h
    | str p =>
      simp only [fbPair, hid] at h
      by_cases hpre : strStarts "og:" p = true
      · rw [if_pos hpre] at h
        cases hct : getAttr m "content" with
        | none => simp [hct] at h
        | some cv =>
          cases cv with
          | list l2 => simp [hct] at h
          | str c0 =>
            simp only [hct] at h
            by_cases he : strTrim c0 = ""
            · simp [he] at h
            · rw [if_neg he] at h
              injection h with h2
              have hk : replaceColons (strDropN 3 p) = k := congrArg Prod.fst h2
              rw [← hk]
              exact colon_not_mem_replaceColons _
      · rw [if_neg hpre] at h
        exact Option.noConfusion h

theorem fbOg_keys_no_colon (d : Doc) (k : String) (v : String)
    (h : alookup (fbRun d).ogTags k = some v) : ':' ∉ k.toList := by
  rw [fbRun_ogTags, alookup_dfold_nil] at h
  have hsome : (lastVal k ((listFindAll "meta" d).filterMap fbPair)).isSome = true := by
    rw [h]; rfl
  obtain ⟨m, _, v', hf⟩ := (lastVal_filterMap_isSome_iff _ _ _).1 hsome
  exact fbPair_key_no_colon m k v' hf

theorem twCard_lookup (d : Doc) (k : String) :
    alookup (twCard d) k = lastVal k ((listFindAll "meta" d).filterMap twPair) :=
  alookup_dfold_nil _ _

theorem twResult_isSome_iff (d : Doc) :
    (alookup (twResult d) "twitter_cards").isSome = true
      ↔ (listFindAll "meta" d).any twCardQual = true := by
  constructor
  · intro hs
    cases hl : alookup (twCard d) "card" with
    | some v =>
      rw [List.any_eq_true]
      have h2 : (lastVal "card" ((listFindAll "meta" d).filterMap twPair)).isSome = true := by
        rw [← twCard_lookup, hl]; rfl
      obtain ⟨m, hm, v', hf⟩ := (lastVal_filterMap_isSome_iff _ _ _).1 h2
      exact ⟨m, hm, (twPair_card_iff m).1 ⟨v', hf⟩⟩
    | none =>
      exfalso
      rw [show twResult d = [] from by simp only [twResult, hl]] at hs
      simp [alookup] at hs
  · intro hany
    rw [List.any_eq_true] at hany
    obtain ⟨m, hm, hq⟩ := hany
    obtain ⟨v, hf⟩ := (twPair_card_iff m).2 hq
    have hsome : (lastVal "card" ((listFindAll "meta" d).filterMap twPair)).isSome = true :=
      (lastVal_filterMap_isSome_iff _ _ _).2 ⟨m, hm, v, hf⟩
    rw [← twCard_lookup] at hsome
    cases hl : alookup (twCard d) "card" with
    | none => rw [hl] at hsome; simp at hsome
    | some v2 =>
      rw [show twResult d = [("twitter_cards", .cards [twCard d])] from
        by simp only [twResult, hl]]
      simp [alookup]

theorem twResult_cards (d : Doc) (cs : List (List (String × Val)))
    (h : alookup (twResult d) "twitter_cards" = some (.cards cs)) :
    cs = [twCard d] := by
  cases hl : alookup (twCard d) "card" with
  | some v =>
    rw [show twResult d = [("twitter_cards", .cards [twCard d])] from
      by simp only [twResult, hl]] at h
    simp [alookup] at h
    exact h.symm
  | none =>
    rw [show twResult d = [] from by simp only [twResult, hl]] at h
    simp [alookup] at h

theorem twEmptyCard_qual (m : Node) (h : twEmptyCard m = true) :
    twCardQual m = true := by
  cases hid : twIdent m with
  | none => simp [twEmptyCard, hid] at h
  | some av =>
    cases av with
    | list l => simp [twEmptyCard, hid] at h
    | str p =>
      cases hct : getAttr m "content" with
      | none => simp [twEmptyCard, hid, hct] at h
      | some cv =>
        cases cv with
        | list l2 => simp [twEmptyCard, hid, hct] at h
        | str c0 =>
          simp only [twEmptyCard, hid, hct, Bool.and_eq_true, beq_iff_eq] at h
          simp [twCardQual, hid, hct, h.1]

/-! ## Claim theorems -/

/-- C1, counterexample: on a document with five `h1` elements (texts
`A`–`E`) and two `h2` elements (texts `F`, `G`), `SemanticTags.extract`
returns a `titles` sequence with five entries, the two `h2` texts
included — not three entries as the claim states, because the cap of 3
is per rule and the `h2` rule appends after the `h1` rule. -/
theorem semanticTags_c1_counterexample :
    (listFindAll "h1" docFiveH1).length = 5 ∧
    (listFindAll "h2" docFiveH1).length = 2 ∧
    alookup (SemanticTags.extract docFiveH1) "titles" =
      some (.seq [.str "A", .str "B", .str "C", .str "F", .str "G"]) := by
  decide

/-- C1, amended: for a document with five `h1` elements, two `h2`
elements and no `h3` element, `titles` holds the texts of the first
three `h1` elements in document order followed by the texts of both
`h2` elements in document order (five entries in total): the cap of 3
applies to each rule separately, so the `h2` entries are appended after
the capped `h1` entries rather than suppressed. -/
theorem semanticTags_five_h1_two_h2 (d : Doc)
    (h1 : (listFindAll "h1" d).length = 5)
    (h2 : (listFindAll "h2" d).length = 2)
    (h3 : listFindAll "h3" d = []) :
    alookup (SemanticTags.extract d) "titles" =
      some (.seq (semTexts "h1" 3 d ++ semTexts "h2" 3 d)) ∧
    (semTexts "h1" 3 d).length = 3 ∧
    (semTexts "h2" 3 d).length = 2 := by
  have ht := semanticTags_titles d
  have e3 : semTexts "h3" 1 d = [] := by simp [semTexts, h3]
  have l1 : (semTexts "h1" 3 d).length = 3 := by
    simp [semTexts, h1]
  have l2 : (semTexts "h2" 3 d).length = 2 := by
    simp [semTexts, h2]
  refine ⟨?_, l1, l2⟩
  rw [ht, e3, List.append_nil]
  cases hcat : semTexts "h1" 3 d ++ semTexts "h2" 3 d with
  | nil =>
    exfalso
    have hlen := congrArg List.length hcat
    simp [l1, l2] at hlen
  | cons x xs => rfl

/-- C1, witness for the amended theorem at the concrete document. -/
theorem semanticTags_five_h1_two_h2_witness :
    (listFindAll "h1" docFiveH1).length = 5 ∧
    (listFindAll "h2" docFiveH1).length = 2 ∧
    listFindAll "h3" docFiveH1 = [] ∧
    (alookup (SemanticTags.extract docFiveH1) "titles" =
        some (.seq (semTexts "h1" 3 docFiveH1 ++ semTexts "h2" 3 docFiveH1)) ∧
      (semTexts "h1" 3 docFiveH1).length = 3 ∧
      (semTexts "h2" 3 docFiveH1).length = 2) :=
  ⟨by decide, by decide, rfl,
   semanticTags_five_h1_two_h2 docFiveH1 (by decide) (by decide) rfl⟩

/-- C8: `SemanticTags.extract` contributes at most `store_first_n`
entries per rule: `titles` is exactly the capped `h1`, `h2` and `h3`
contributions in that order (at most 3, 3 and 1 entries), `descriptions`
the capped `p` contribution (at most 5), and `images` the capped `img`
`src` contribution (at most 10). -/
theorem semanticTags_rule_caps (d : Doc) :
    alookup (SemanticTags.extract d) "titles"
      = seqOpt ((semTexts "h1" 3 d ++ semTexts "h2" 3 d) ++ semTexts "h3" 1 d) ∧
    alookup (SemanticTags.extract d) "descriptions" = seqOpt (semTexts "p" 5 d) ∧
    alookup (SemanticTags.extract d) "images" = seqOpt (semImgs d) ∧
    (semTexts "h1" 3 d).length ≤ 3 ∧ (semTexts "h2" 3 d).length ≤ 3 ∧
    (semTexts "h3" 1 d).length ≤ 1 ∧ (semTexts "p" 5 d).length ≤ 5 ∧
    (semImgs d).length ≤ 10 := by
  refine ⟨semanticTags_titles d, semanticTags_descriptions d,
    semanticTags_images d, ?_, ?_, ?_, ?_, ?_⟩
  · simp [semTexts]
  · simp [semTexts]
  · simp [semTexts]
  · simp [semTexts]
  · calc (semImgs d).length ≤ ((listFindAll "img" d).take 10).length :=
          List.length_filterMap_le _ _
      _ ≤ 10 := by simp

/-- C5: for a well-formed document whose only `title` element has a
single text child `t`, `HeadTags.extract` returns a `titles` sequence
with exactly one entry, equal to the title text. -/
theorem headTags_title_unique (d : Doc) (a : List (String × AttrVal)) (t : String)
    (h : listFindAll "title" d = [Node.elem "title" a [Node.text t]]) :
    alookup (HeadTags.extract d) "titles" = some (.seq [.str t]) := by
  unfold HeadTags.extract
  rw [headLinkFold_ne _ _ _ (by decide) (by decide),
    headMetaFold_ne _ _ _ (by decide) (by decide), h]
  rfl

/-- C5, witness at the end-to-end head scenario. -/
theorem headTags_title_unique_witness :
    listFindAll "title" docHead = [Node.elem "title" [] [Node.text "T"]] ∧
    alookup (HeadTags.extract docHead) "titles" = some (.seq [.str "T"]) :=
  ⟨rfl, headTags_title_unique docHead [] "T" rfl⟩

/-- C6, counterexample: a link whose `rel` holds both `alternate` and
`canonical`, whose `type` is the RSS type and which has an `href` is
captured by the feeds branch of the `elif` chain, so its `href` never
reaches `urls` although the link's `rel` contains `canonical` and the
link has an `href`. -/
theorem headTags_canonical_counterexample :
    (∃ l ∈ listFindAll "link" docFeedCanonical,
      getAttr l "rel" = some (.list ["alternate", "canonical"]) ∧
      relHas (AttrVal.list ["alternate", "canonical"]) "canonical" = true ∧
      getAttr l "href" = some (.str "http://u")) ∧
    alookup (HeadTags.extract docFeedCanonical) "urls" = none := by
  decide

/-- C6, amended: `urls` holds exactly the `href` of every link whose
`rel` contains or equals `canonical` (single token or token set) and
which has an `href`, in document order — except links that the feeds
branch captures first (`rel` containing `alternate` with the RSS
`type`), which contribute to `feeds` instead of `urls`. -/
theorem headTags_canonical_urls (d : Doc) :
    alookup (HeadTags.extract d) "urls" = seqOpt (canonHrefs d) :=
  headTags_urls_eq d

/-- C2, counterexample: a `meta` tag with identifier `og:type` but no
`content` attribute exists, yet the result has no `og_tags` key,
because the tag is skipped on the `content` `KeyError`. -/
theorem fb_og_tags_counterexample :
    (∃ m ∈ listFindAll "meta" docTypeNoContent,
      fbIdent m = some (.str "og:type")) ∧
    FacebookOpengraphTags.extract docTypeNoContent = .ok [] :=
  ⟨by decide, rfl⟩

/-- C2, amended: under the parser invariant, the result contains the
`og_tags` key iff some `meta` tag has identifier `og:type` (attribute
`property`, falling back to `name`) together with a `content` attribute
that is nonempty after trimming; and every key of the `og_tags` mapping
contains no `:` character. -/
theorem fb_og_tags_iff (d : Doc) (h : docStrAttrs d = true) :
    FacebookOpengraphTags.extract d = .ok (fbResult d) ∧
    ((alookup (fbResult d) "og_tags").isSome = true
      ↔ (listFindAll "meta" d).any fbTypeQual = true) ∧
    (∀ td k v, alookup (fbResult d) "og_tags" = some (.dict td) →
      alookup td k = some v → ':' ∉ k.toList) := by
  refine ⟨fbExtract_ok d h, fbResult_isSome_iff d, ?_⟩
  intro td k v htd hkv
  rw [fbResult_dict d td htd] at hkv
  exact fbOg_keys_no_colon d k v hkv

/-- C2, witness for the amended theorem at a concrete Open Graph
document. -/
theorem fb_og_tags_iff_witness :
    docStrAttrs docOg = true ∧
    ((alookup (fbResult docOg) "og_tags").isSome = true
      ↔ (listFindAll "meta" docOg).any fbTypeQual = true) :=
  ⟨by decide, (fb_og_tags_iff docOg (by decide)).2.1⟩

/-- C3, counterexample: a `meta` tag with identifier `twitter:card` but
no `content` attribute exists, yet the result has no `twitter_cards`
key, because the tag is skipped on the `content` `KeyError`. -/
theorem twitter_cards_counterexample :
    (∃ m ∈ listFindAll "meta" docCardNoContent,
      twIdent m = some (.str "twitter:card")) ∧
    Twitter.extract docCardNoContent = .ok [] :=
  ⟨by decide, rfl⟩

/-- C3, amended: under the parser invariant, the result contains the
`twitter_cards` key iff some `meta` tag has identifier `twitter:card`
(attribute `name`, falling back to `property`) together with a `content`
attribute; the value is then a sequence of exactly one card mapping, and
the card holds, for each normalized key, the content of the last
`twitter:*` meta tag in document order that normalizes to that key. -/
theorem twitter_cards_iff (d : Doc) (h : docStrAttrs d = true) :
    Twitter.extract d = .ok (twResult d) ∧
    ((alookup (twResult d) "twitter_cards").isSome = true
      ↔ (listFindAll "meta" d).any twCardQual = true) ∧
    (∀ cs, alookup (twResult d) "twitter_cards" = some (.cards cs) →
      cs = [twCard d]) ∧
    (∀ k, alookup (twCard d) k
      = lastVal k ((listFindAll "meta" d).filterMap twPair)) :=
  ⟨twExtract_ok d h, twResult_isSome_iff d, twResult_cards d,
   fun k => twCard_lookup d k⟩

/-- C3, witness for the amended theorem at a concrete Twitter card
document with a repeated property. -/
theorem twitter_cards_iff_witness :
    docStrAttrs docTwitter = true ∧
    ((alookup (twResult docTwitter) "twitter_cards").isSome = true
      ↔ (listFindAll "meta" docTwitter).any twCardQual = true) :=
  ⟨by decide, (twitter_cards_iff docTwitter (by decide)).2.1⟩

/-- C4: no technique raises.  `HeadTags.extract`, `HTML5SemanticTags.extract`
and `SemanticTags.extract` are total functions of the document by
construction (every attribute access is guarded); for the two techniques
whose source uses exception control flow, under the parser invariant
`FacebookOpengraphTags.extract` and `Twitter.extract` always return a
result rather than an exception, and the base `Technique.extract`
returns the empty baseline result for every input. -/
theorem extract_never_raises (d : Doc) (h : docStrAttrs d = true) :
    (∃ r, FacebookOpengraphTags.extract d = .ok r) ∧
    (∃ r, Twitter.extract d = .ok r) ∧
    Technique.extract d =
      [("titles", .seq []), ("descriptions", .seq []),
       ("images", .seq []), ("urls", .seq [])] :=
  ⟨⟨fbResult d, fbExtract_ok d h⟩, ⟨twResult d, twExtract_ok d h⟩, rfl⟩

/-- C4, witness at a concrete document. -/
theorem extract_never_raises_witness :
    docStrAttrs docOg = true ∧
    (∃ r, FacebookOpengraphTags.extract docOg = .ok r) ∧
    (∃ r, Twitter.extract docOg = .ok r) :=
  ⟨by decide, (extract_never_raises docOg (by decide)).1,
   (extract_never_raises docOg (by decide)).2.1⟩

/-- C7: a meta tag whose identifier (attribute `property`, falling back
to `name`) starts with `og:` but is not in `property_map` contributes
its normalized key and trimmed content to `og_tags` only: the step
returns normally (`KeyError` from the map lookup is caught after the
`og_tags` update), and the `extracted` field sequences are unchanged. -/
theorem fb_unmapped_contributes_og_only (st : FBSt) (m : Node) (p c : String)
    (hid : fbIdent m = some (.str p)) (hpre : strStarts "og:" p = true)
    (hc : getAttr m "content" = some (.str c)) (hne : strTrim c ≠ "")
    (hunm : alookup property_map p = none) :
    fbStep st m = .ok ⟨st.extracted,
      dinsert st.ogTags (replaceColons (strDropN 3 p)) (strTrim c)⟩ := by
  simp only [fbStep, hid, hpre, if_true, hc, if_neg hne, hunm]

/-- C7, witness at the unmapped `og:site_name` tag. -/
theorem fb_unmapped_contributes_og_only_witness :
    fbIdent metaSiteName = some (.str "og:site_name") ∧
    alookup property_map "og:site_name" = none ∧
    fbStep ⟨[], []⟩ metaSiteName = .ok ⟨[], [("site_name", "IMDb")]⟩ := by
  refine ⟨by decide, by decide, ?_⟩
  have h := fb_unmapped_contributes_og_only ⟨[], []⟩ metaSiteName
    "og:site_name" "IMDb" (by decide) (by decide) (by decide) (by decide) (by decide)
  rw [h]
  rfl

/-- C9: `Twitter` stores the raw `content` attribute value — no
trimming, no emptiness guard — under the normalized key; and a document
with a `twitter:card` meta tag whose content trims to the empty string
still gets a `twitter_cards` entry (of exactly one card). -/
theorem twitter_raw_content :
    (∀ (card : List (String × Val)) (m : Node) (p : String) (v : AttrVal),
      twIdent m = some (.str p) → strStarts "twitter:" p = true →
      getAttr m "content" = some v →
      twStep card m = .ok (dinsert card (replaceColons (strDropN 8 p)) (valOf v))) ∧
    (∀ d : Doc, docStrAttrs d = true →
      (listFindAll "meta" d).any twEmptyCard = true →
      ∃ cs, Twitter.extract d = .ok [("twitter_cards", .cards cs)] ∧
        cs.length = 1) := by
  constructor
  · intro card m p v hid hpre hct
    simp only [twStep, hid, hpre, if_true, hct]
  · intro d h hany
    have hq : (listFindAll "meta" d).any twCardQual = true := by
      rw [List.any_eq_true] at hany ⊢
      obtain ⟨m, hm, hc⟩ := hany
      exact ⟨m, hm, twEmptyCard_qual m hc⟩
    have hsome := (twResult_isSome_iff d).2 hq
    cases hl : alookup (twCard d) "card" with
    | none =>
      exfalso
      rw [show twResult d = [] from by simp only [twResult, hl]] at hsome
      simp [alookup] at hsome
    | some v =>
      refine ⟨[twCard d], ?_, rfl⟩
      rw [twExtract_ok d h,
        show twResult d = [("twitter_cards", .cards [twCard d])] from
          by simp only [twResult, hl]]

/-- C9, witness: the step stores the raw whitespace content, and the
whitespace-only card document still yields a `twitter_cards` entry. -/
theorem twitter_raw_content_witness :
    twStep [] (metaTag "name" "twitter:card" " ")
      = .ok [("card", Val.str " ")] ∧
    (∃ cs, Twitter.extract docTwitterEmpty = .ok [("twitter_cards", .cards cs)] ∧
      cs.length = 1) := by
  constructor
  · have h := twitter_raw_content.1 [] (metaTag "name" "twitter:card" " ")
      "twitter:card" (.str " ") (by decide) (by decide) (by decide)
    rw [h]
    rfl
  · exact twitter_raw_content.2 docTwitterEmpty (by decide) (by decide)

/-- C10: every value `FacebookOpengraphTags` stores — into the mapped
field sequence when the identifier is in `property_map`, and into
`og_tags` in every case — is the `content` attribute with surrounding
whitespace stripped, not the raw attribute value. -/
theorem fb_stores_trimmed_content (st : FBSt) (m : Node) (p c : String)
    (hid : fbIdent m = some (.str p)) (hpre : strStarts "og:" p = true)
    (hc : getAttr m "content" = some (.str c)) (hne : strTrim c ≠ "") :
    fbStep st m = .ok ⟨
      (match alookup property_map p with
       | some dest => appendTo st.extracted dest (.str (strTrim c))
       | none => st.extracted),
      dinsert st.ogTags (replaceColons (strDropN 3 p)) (strTrim c)⟩ := by
  simp only [fbStep, hid, hpre, if_true, hc, if_neg hne]
  cases alookup property_map p <;> rfl

/-- C10, witness: padded content `" The Rock "` is stored as
`"The Rock"` in both `titles` and `og_tags`. -/
theorem fb_stores_trimmed_content_witness :
    getAttr metaOgTitle "content" = some (.str " The Rock ") ∧
    strTrim " The Rock " = "The Rock" ∧
    fbStep ⟨[], []⟩ metaOgTitle
      = .ok ⟨[("titles", .seq [.str "The Rock"])], [("title", "The Rock")]⟩ := by
  refine ⟨by decide, by decide, ?_⟩
  have h := fb_stores_trimmed_content ⟨[], []⟩ metaOgTitle "og:title" " The Rock "
    (by decide) (by decide) (by decide) (by decide)
  rw [h]
  rfl

end Extraction
